import Mathlib

/-!
Shallow embedding of the Prompt-to-JSON Enhancer core module
(`prompt_to_json_enhancer.py`) and of the backend coordination layer
(`backend/api/server.py`).

Strings are modelled as `List Char` inside the analyzer pipeline and as
`String` at the interface level.  Python whitespace handling (`str.strip`
and the regex class `\s`) is modelled over its ASCII fragment, which covers
every input appearing in the claims.  The regular expressions of the source
are embedded concretely: each of the seven question patterns is a finite
alternation of literal prefixes followed by a lazy capture `(.+?)(?:\?|$)`,
and `re.search` is leftmost-position search with backtracking over the
alternation at each position.
-/

/-- Whitespace test matching the ASCII fragment of Python's `\s` class and of
`str.strip()`: space, tab, newline, carriage return, vertical tab, form feed. -/
def isWS (c : Char) : Bool :=
  c == ' ' || c == '\t' || c == '\n' || c == '\r' || c == '\x0B' || c == '\x0C'

/-- Python `str.strip()` over the ASCII whitespace fragment. -/
def pyStrip (l : List Char) : List Char :=
  ((l.dropWhile isWS).reverse.dropWhile isWS).reverse

/-- Helper for `collapseWS`; `prevWS` records whether the previous input
character belonged to a whitespace run whose single replacement space has
already been emitted.  Implements `re.sub(r'\s+', ' ', ·)`. -/
def collapseAux (prevWS : Bool) : List Char → List Char
  | [] => []
  | c :: rest =>
    if isWS c then
      if prevWS then collapseAux true rest
      else ' ' :: collapseAux true rest
    else c :: collapseAux false rest

/-- Replacement of every maximal whitespace run by one space,
`re.sub(r'\s+', ' ', ·)` from `clean_prompt`. -/
def collapseWS (l : List Char) : List Char := collapseAux false l

/-- Test for the regex `^<word>\s+` with `re.IGNORECASE`: the lower-cased text
starts with the (lower-case) filler word, followed by at least one whitespace
character.  The space inside two-word fillers is a literal space in the regex
and matches only a space character, exactly as here. -/
def fillerAt (w t : List Char) : Bool :=
  ((t.take w.length).map Char.toLower == w) &&
    (match t.drop w.length with
     | c :: _ => isWS c
     | [] => false)

/-- One pass of `re.sub(f'^{word}\\s+', '', cleaned, flags=re.IGNORECASE)`:
if the filler word starts the text and is followed by whitespace, the word and
the whole (greedy `\s+`) whitespace run after it are removed. -/
def stripFillerOnce (w t : List Char) : List Char :=
  if fillerAt w t then (t.drop w.length).dropWhile isWS else t

/-- Filler word list of `clean_prompt`, in source order. -/
def fillerWords : List (List Char) :=
  ["please".data, "can you".data, "could you".data, "i need".data, "i want".data]

/-- The `clean_prompt` method: strip, collapse whitespace runs, then apply the
filler regexes one after the other in list order (each regex is applied to the
result of the previous one, as in the source's `for` loop). -/
def clean_prompt (l : List Char) : List Char :=
  fillerWords.foldl (fun acc w => stripFillerOnce w acc) (collapseWS (pyStrip l))

/-- Test whether `needle` starts `hay` (character-wise equality). -/
def startsWithCh : List Char → List Char → Bool
  | [], _ => true
  | _ :: _, [] => false
  | a :: n, b :: h => a == b && startsWithCh n h

/-- Python's substring containment `needle in hay`. -/
def containsSub (needle : List Char) : List Char → Bool
  | [] => needle.isEmpty
  | b :: h => startsWithCh needle (b :: h) || containsSub needle h

/-- Keyword table of `detect_context`, in the source's insertion order. -/
def context_keywords : List (String × List String) :=
  [("technical", ["code", "programming", "algorithm", "software", "development"]),
   ("educational", ["explain", "teach", "learn", "understand", "concept"]),
   ("creative", ["write", "story", "poem", "creative", "imagine"]),
   ("analytical", ["analyze", "compare", "evaluate", "assess", "critique"]),
   ("business", ["strategy", "business", "marketing", "finance", "management"])]

/-- The score `sum(1 for keyword in keywords if keyword in prompt_lower)`:
each keyword contributes at most one, regardless of repetitions. -/
def scoreOf (lower : List Char) (kws : List String) : Nat :=
  (kws.filter (fun k => containsSub k.data lower)).length

/-- Python's `max(context_scores, key=context_scores.get)` over an
insertion-ordered dict: the running best is replaced only on a strictly
greater score, so the earliest maximal entry wins. -/
def bestOf (x : String × Nat) : List (String × Nat) → String × Nat
  | [] => x
  | y :: ys => bestOf (if x.2 < y.2 then y else x) ys

/-- The `detect_context` method: score every category against the lower-cased
text, take the first category attaining the maximal score, and fall back to
"general" when the maximal score is zero. -/
def detect_context (p : List Char) : String :=
  let lower := p.map Char.toLower
  match context_keywords.map (fun ck => (ck.1, scoreOf lower ck.2)) with
  | [] => "general"
  | x :: xs =>
    let best := bestOf x xs
    if 0 < best.2 then best.1 else "general"

/-- Tail of the lazy capture `(.+?)(?:\?|$)` after at least one character has
been captured: stop (lazily) before a `?`, stop at the end of the string, stop
before a final newline (`$` matches there), refuse to cross any other newline
(`.` does not match newline), otherwise capture the character and continue. -/
def pyCaptureTail : List Char → Option (List Char)
  | [] => some []
  | '?' :: _ => some []
  | ['\n'] => some []
  | '\n' :: _ :: _ => none
  | c :: rest =>
    match pyCaptureTail rest with
    | some t => some (c :: t)
    | none => none

/-- The lazy capture `(.+?)(?:\?|$)`: at least one non-newline character, then
the terminator as in `pyCaptureTail`. -/
def pyCapture : List Char → Option (List Char)
  | [] => none
  | c :: rest =>
    if c = '\n' then none
    else
      match pyCaptureTail rest with
      | some t => some (c :: t)
      | none => none

/-- Match one fully-literal alternative (for instance `"what is "`) at the
current position, case-insensitively, then run the capture on the rest.
The capture is taken from the original text, not the lower-cased copy. -/
def litMatch (w s : List Char) : Option (List Char) :=
  if (s.take w.length).map Char.toLower = w then pyCapture (s.drop w.length)
  else none

/-- Ordered alternation: the regex engine tries the alternatives left to
right at one position and backtracks into the next alternative on failure. -/
def altsMatch : List (List Char) → List Char → Option (List Char)
  | [], _ => none
  | w :: ws, s =>
    match litMatch w s with
    | some cap => some cap
    | none => altsMatch ws s

/-- Python `re.search`: try the pattern at every position from the left and
return the first successful capture. -/
def reSearch (lits : List (List Char)) : List Char → Option (List Char)
  | [] => none
  | c :: t =>
    match altsMatch lits (c :: t) with
    | some cap => some cap
    | none => reSearch lits t

/-- The seven `question_patterns` of `extract_problem`, each expanded into the
list of its literal prefixes (pattern alternation order preserved). -/
def questionPatterns : List (List (List Char)) :=
  [["what is ".data, "what are ".data, "what was ".data, "what were ".data],
   ["how do ".data, "how does ".data, "how can ".data, "how should ".data],
   ["why is ".data, "why are ".data, "why does ".data],
   ["explain ".data],
   ["describe ".data],
   ["compare ".data],
   ["analyze ".data]]

/-- The `for pattern in question_patterns` loop: first pattern whose
`re.search` succeeds wins. -/
def extractLoop : List (List (List Char)) → List Char → Option (List Char)
  | [], _ => none
  | pat :: pats, s =>
    match reSearch pat s with
    | some cap => some cap
    | none => extractLoop pats s

/-- The `extract_problem` method: on a match return `match.group(1).strip()`,
otherwise return the prompt unchanged. -/
def extract_problem (s : List Char) : List Char :=
  match extractLoop questionPatterns s with
  | some cap => pyStrip cap
  | none => s

/-- Ordered association lookup with default, modelling Python's
`dict.get(key, default)` over an insertion-ordered literal dict. -/
def lookupD : List (String × String) → String → String → String
  | [], _, d => d
  | (k, v) :: rest, key, d => if k = key then v else lookupD rest key d

/-- The `context_approaches` table of `determine_solution_approach`. -/
def context_approaches : List (String × String) :=
  [("technical", "Provide technical explanation with examples and best practices"),
   ("educational", "Give clear, step-by-step explanation suitable for learning"),
   ("creative", "Offer creative suggestions and examples"),
   ("analytical", "Present detailed analysis with pros/cons and conclusions"),
   ("business", "Focus on practical applications and business value"),
   ("general", "Provide comprehensive information covering key aspects")]

/-- The `determine_solution_approach` method (the prompt argument is accepted
but unused, as in the source). -/
def determine_solution_approach (_prompt : List Char) (context : String) : String :=
  lookupD context_approaches context "Provide comprehensive information covering key aspects"

/-- The `format_keywords` table of `suggest_output_format`, insertion order. -/
def format_keywords : List (String × String) :=
  [("bullet", "bullet points"),
   ("list", "bullet points"),
   ("step", "step-by-step guide"),
   ("table", "table format"),
   ("compare", "comparative analysis"),
   ("summary", "summary"),
   ("code", "code example"),
   ("essay", "essay format")]

/-- The `context_formats` default table of `suggest_output_format`. -/
def context_formats : List (String × String) :=
  [("technical", "detailed explanation"),
   ("educational", "step-by-step guide"),
   ("creative", "essay format"),
   ("analytical", "comparative analysis"),
   ("business", "summary"),
   ("general", "detailed explanation")]

/-- The `for keyword, format_type in format_keywords.items()` loop: the first
keyword found as a substring of the lower-cased prompt wins. -/
def findFormat : List (String × String) → List Char → Option String
  | [], _ => none
  | (kw, fmt) :: rest, lower =>
    if containsSub kw.data lower then some fmt else findFormat rest lower

/-- The `suggest_output_format` method. -/
def suggest_output_format (prompt : List Char) (context : String) : String :=
  match findFormat format_keywords (prompt.map Char.toLower) with
  | some fmt => fmt
  | none => lookupD context_formats context "detailed explanation"

/-- The four-field output record of the analyzer. -/
structure StructuredPrompt where
  context : String
  problem : String
  expected_solution : String
  output_format : String
deriving DecidableEq

/-- The `analyze_prompt` method: clean, then run the four extraction steps on
the cleaned text (step four and five receive the context of step two). -/
def analyze_prompt (prompt : String) : StructuredPrompt :=
  let cleaned := clean_prompt prompt.data
  let context := detect_context cleaned
  { context := context,
    problem := (extract_problem cleaned).asString,
    expected_solution := determine_solution_approach cleaned context,
    output_format := suggest_output_format cleaned context }

/-- Result of the core `enhance_prompt` method.  The timestamp, version tag
and processing-time entries of the metadata dict are wall-clock or constant
bookkeeping outside the analytical model; the fields that the claims speak
about are the untouched original prompt and the enhanced record. -/
structure EnhancementLocal where
  original_prompt : String
  enhanced_prompt : StructuredPrompt
deriving DecidableEq

/-- The `enhance_prompt` method of the core module. -/
def enhance_prompt (prompt : String) : EnhancementLocal :=
  { original_prompt := prompt, enhanced_prompt := analyze_prompt prompt }

/-- Value returned by `json.loads` in `call_gemini` — any JSON type, since the
source validates whatever came back.  Object values are restricted to strings
or null, the shape the service is instructed to produce and the only one the
claims exercise; `pynum` stands for any numeric payload (Python ints and
floats behave identically here: both are non-iterable). -/
inductive PyJson where
  | pynull : PyJson
  | pybool : Bool → PyJson
  | pynum : Int → PyJson
  | pystr : String → PyJson
  | pylist : List PyJson → PyJson
  | pyobj : List (String × Option String) → PyJson

/-- Observable behaviour of the external generation service, at the point
after `call_gemini`'s response post-processing would run `json.loads`:
`failure` covers a missing credential, a raised exception, a timeout and text
whose brace-extracted substring is not valid JSON (all of these make the
`try` block of `call_gemini` return `None`); `parsed` carries the
successfully parsed JSON value, of any JSON type. -/
inductive GeminiOutcome where
  | failure : GeminiOutcome
  | parsed : PyJson → GeminiOutcome

/-- The four keys `call_gemini` validates before accepting a response. -/
def requiredKeys : List String :=
  ["context", "problem", "expected_solution", "output_format"]

/-- Whether Python's `k in data` is applicable: dicts, lists and strings
support `in`; on null, booleans and numbers it raises `TypeError`, which the
surrounding `except` of `call_gemini` turns into `None`. -/
def pyIterable : PyJson → Bool
  | .pyobj _ => true
  | .pylist _ => true
  | .pystr _ => true
  | _ => false

/-- Python's `k in xs` for a list of JSON values: `==`-membership, where a
string key equals only an equal string element. -/
def pyMemStr (k : String) : List PyJson → Bool
  | [] => false
  | .pystr s :: rest => s == k || pyMemStr k rest
  | _ :: rest => pyMemStr k rest

/-- Python's `k in data` on an iterable JSON value: key membership for a
dict, `==`-membership for a list, substring containment for a string. -/
def pyMem (k : String) : PyJson → Bool
  | .pyobj fields => (fields.lookup k).isSome
  | .pylist xs => pyMemStr k xs
  | .pystr s => containsSub k.data s.data
  | _ => false

/-- Value of a successful `call_gemini` call. -/
structure GeminiReply where
  original_prompt : String
  enhanced_prompt : PyJson
  source : String

/-- The `call_gemini` function: `None` on failure, `None` when
`all(k in data ...)` raises `TypeError` (non-iterable JSON, caught by the
`except`), and `None` when the membership check fails for some required key;
otherwise the parsed value — dict or not — is wrapped with metadata source
"gemini". -/
def call_gemini (prompt : String) (g : GeminiOutcome) : Option GeminiReply :=
  match g with
  | .failure => none
  | .parsed data =>
    if pyIterable data then
      if requiredKeys.all (fun k => pyMem k data) then
        some { original_prompt := prompt, enhanced_prompt := data, source := "gemini" }
      else none
    else none

/-- Final record of the `/enhance` endpoint; metadata is reduced to its
`source` tag, the only metadata field the endpoint sets on every path. -/
structure EnhanceResult where
  original_prompt : String
  enhanced_prompt : StructuredPrompt
  source : String
deriving DecidableEq

/-- Endpoint outcome: an explicit `HTTPException(status, detail)`, an uncaught
exception escaping the handler (surfaced by the framework to the caller as an
HTTP 500 response), or a response body. -/
inductive EndpointResult where
  | httpError : Nat → String → EndpointResult
  | internalError : String → EndpointResult
  | ok : EnhanceResult → EndpointResult
deriving DecidableEq

/-- Python's `x or y` for an external field value `x`: the external value is
kept when it is truthy (present, non-null and non-empty), otherwise the local
value is used. -/
def pyOr (x : Option String) (y : String) : String :=
  match x with
  | some s => if s = "" then y else s
  | none => y

/-- The `/enhance` endpoint: reject blank prompts with a 400 error, fall back
to the local analyzer (source "local") when `call_gemini` returns `None`, and
otherwise merge the accepted value with the local hints field by field
(source "gemini+local").  `dict.get(k)` on a parsed object is modelled by
`lookup` followed by `Option.join`, which sends both a missing key and a JSON
null to `none`.  When the accepted value is not an object, the merge's
`llm_result["enhanced_prompt"].get(...)` raises `AttributeError` — no handler
in the endpoint catches it, so it escapes as an internal error. -/
def enhance_endpoint (prompt : String) (g : GeminiOutcome) : EndpointResult :=
  if pyStrip prompt.data = [] then .httpError 400 "Prompt is required"
  else
    match call_gemini prompt g with
    | none =>
      let enhanced := enhance_prompt prompt
      .ok { original_prompt := enhanced.original_prompt,
            enhanced_prompt := enhanced.enhanced_prompt,
            source := "local" }
    | some llm =>
      match llm.enhanced_prompt with
      | .pyobj fields =>
        let local_hint := analyze_prompt prompt
        .ok { original_prompt := prompt,
              enhanced_prompt :=
                { context := pyOr ((fields.lookup "context").join) local_hint.context,
                  problem := pyOr ((fields.lookup "problem").join) local_hint.problem,
                  expected_solution :=
                    pyOr ((fields.lookup "expected_solution").join) local_hint.expected_solution,
                  output_format :=
                    pyOr ((fields.lookup "output_format").join) local_hint.output_format },
              source := "gemini+local" }
      | _ => .internalError "AttributeError"

/-- Head of the list is not whitespace (vacuously true for the empty list). -/
def headNotWSB (l : List Char) : Bool :=
  match l with
  | [] => true
  | c :: _ => !isWS c

/-- Last of the list is not whitespace (vacuously true for the empty list). -/
def lastNotWSB (l : List Char) : Bool := headNotWSB l.reverse

/-- No two adjacent characters are both whitespace. -/
def noDoubleWSB : List Char → Bool
  | [] => true
  | [_] => true
  | a :: b :: t => !(isWS a && isWS b) && noDoubleWSB (b :: t)

/-- Every whitespace character of the list is a plain space. -/
def onlyPlainSpaces (l : List Char) : Bool :=
  l.all (fun c => !isWS c || c == ' ')

/-- Sequential application of the filler passes, in list order; spec-side
description of the filler loop of `clean_prompt`. -/
def stripSeq : List (List Char) → List Char → List Char
  | [], t => t
  | w :: ws, t => stripSeq ws (stripFillerOnce w t)

/-- The highest score occurring in a score list (zero for the empty list);
spec-side notion for context detection. -/
def maxScore : List (String × Nat) → Nat
  | [] => 0
  | y :: ys => Nat.max y.2 (maxScore ys)

/-- First category name attaining a given score, in list order; spec-side
notion of the tie-break "earliest category wins". -/
def firstWithScore (m : Nat) : List (String × Nat) → Option String
  | [] => none
  | y :: ys => if y.2 = m then some y.1 else firstWithScore m ys

/-- Context detection as the specification words it: score the five
categories, return the first category attaining the maximal score, and
return "general" exactly when the maximal score is zero. -/
def detectContextSpec (p : List Char) : String :=
  let lower := p.map Char.toLower
  let scores := context_keywords.map (fun ck => (ck.1, scoreOf lower ck.2))
  let m := maxScore scores
  if m = 0 then "general"
  else
    match firstWithScore m scores with
    | some name => name
    | none => "general"

/-- Output-format suggestion as the specification words it: the first keyword
of the fixed priority order bullet, list, step, table, compare, summary,
code, essay found as a case-insensitive substring wins, otherwise the
context-keyed default table applies. -/
def suggestFormatSpec (t : List Char) (ctx : String) : String :=
  if containsSub ("bullet".data) (t.map Char.toLower) then "bullet points"
  else if containsSub ("list".data) (t.map Char.toLower) then "bullet points"
  else if containsSub ("step".data) (t.map Char.toLower) then "step-by-step guide"
  else if containsSub ("table".data) (t.map Char.toLower) then "table format"
  else if containsSub ("compare".data) (t.map Char.toLower) then "comparative analysis"
  else if containsSub ("summary".data) (t.map Char.toLower) then "summary"
  else if containsSub ("code".data) (t.map Char.toLower) then "code example"
  else if containsSub ("essay".data) (t.map Char.toLower) then "essay format"
  else if "technical" = ctx then "detailed explanation"
  else if "educational" = ctx then "step-by-step guide"
  else if "creative" = ctx then "essay format"
  else if "analytical" = ctx then "comparative analysis"
  else if "business" = ctx then "summary"
  else "detailed explanation"

/-- Failure behaviours of the external service on which `call_gemini` returns
`None` and the endpoint falls back: a raised exception or non-JSON text (both
end the `try` block of `call_gemini` early, modelled by `failure`); a parsed
JSON object lacking one of the four required keys; a parsed JSON string not
containing every key name as a substring; a parsed JSON array not containing
every key name as an element; and parsed non-iterable JSON (null, boolean or
number), on which `k in data` raises a `TypeError` that the `except` catches.
Deliberately excluded is a parsed JSON string or array containing all four
key names: that value passes the membership validation and the merge then
crashes with an uncaught `AttributeError`. -/
def serviceFails : GeminiOutcome → Prop
  | .failure => True
  | .parsed (.pyobj fields) => ¬ requiredKeys.all (fun k => (fields.lookup k).isSome) = true
  | .parsed (.pystr s) => ¬ requiredKeys.all (fun k => containsSub k.data s.data) = true
  | .parsed (.pylist xs) => ¬ requiredKeys.all (fun k => pyMemStr k xs) = true
  | .parsed .pynull => True
  | .parsed (.pybool _) => True
  | .parsed (.pynum _) => True

instance : (g : GeminiOutcome) → Decidable (serviceFails g)
  | .failure => .isTrue trivial
  | .parsed (.pyobj fields) =>
    inferInstanceAs (Decidable (¬ requiredKeys.all (fun k => (fields.lookup k).isSome) = true))
  | .parsed (.pystr s) =>
    inferInstanceAs (Decidable (¬ requiredKeys.all (fun k => containsSub k.data s.data) = true))
  | .parsed (.pylist xs) =>
    inferInstanceAs (Decidable (¬ requiredKeys.all (fun k => pyMemStr k xs) = true))
  | .parsed .pynull => .isTrue trivial
  | .parsed (.pybool _) => .isTrue trivial
  | .parsed (.pynum _) => .isTrue trivial

/-- Well-formedness carried along the cleaning pipeline: the text is nonempty,
ends in a non-whitespace character and never holds two adjacent whitespace
characters. -/
def TidyInv (l : List Char) : Prop :=
  l ≠ [] ∧ lastNotWSB l = true ∧ noDoubleWSB l = true

theorem dropWhile_head_not {p : Char → Bool} :
    ∀ (l : List Char) {c : Char} {t : List Char}, l.dropWhile p = c :: t → p c = false := by
  intro l
  induction l with
  | nil => intro c t h; simp at h
  | cons a l ih =>
    intro c t h
    by_cases hp : p a
    · rw [List.dropWhile_cons_of_pos hp] at h
      exact ih h
    · rw [List.dropWhile_cons_of_neg hp] at h
      injection h with h1 h2
      subst h1
      simpa using hp

theorem dropWhile_headNot (l : List Char) : headNotWSB (l.dropWhile isWS) = true := by
  cases h : l.dropWhile isWS with
  | nil => rfl
  | cons c t => simp [headNotWSB, dropWhile_head_not l h]

theorem dropWhile_eq_drop (p : Char → Bool) : ∀ l : List Char, ∃ k, l.dropWhile p = l.drop k := by
  intro l
  induction l with
  | nil => exact ⟨0, rfl⟩
  | cons a l ih =>
    by_cases hp : p a
    · obtain ⟨k, hk⟩ := ih
      exact ⟨k + 1, by rw [List.dropWhile_cons_of_pos hp]; simpa using hk⟩
    · exact ⟨0, by rw [List.dropWhile_cons_of_neg hp]; rfl⟩

theorem head?_append_left {α : Type} (a b : List α) (h : a ≠ []) : (a ++ b).head? = a.head? := by
  cases a with
  | nil => exact absurd rfl h
  | cons x xs => rfl

theorem mem_of_head?_eq {α : Type} {l : List α} {x : α} (h : l.head? = some x) : x ∈ l := by
  cases l with
  | nil => simp at h
  | cons a t =>
    simp only [List.head?_cons, Option.some.injEq] at h
    subst h
    exact List.mem_cons_self a t

theorem drop_reverse_head? : ∀ (k : Nat) (l : List Char), l.drop k ≠ [] →
    (l.drop k).reverse.head? = l.reverse.head? := by
  intro k
  induction k with
  | zero => intro l _; rfl
  | succ k ih =>
    intro l h
    cases l with
    | nil => simp at h
    | cons c t =>
      have hdk : (c :: t).drop (k + 1) = t.drop k := List.drop_succ_cons
      have ht : t.drop k ≠ [] := by rw [← hdk]; exact h
      have htne : t ≠ [] := by
        intro he
        subst he
        simp at ht
      rw [hdk, ih t ht, List.reverse_cons,
        head?_append_left _ _ (by simpa using htne)]

theorem headNotWSB_congr {a b : List Char} (h : a.head? = b.head?) :
    headNotWSB a = headNotWSB b := by
  cases a with
  | nil =>
    cases b with
    | nil => rfl
    | cons y ys => simp at h
  | cons x xs =>
    cases b with
    | nil => simp at h
    | cons y ys =>
      simp only [List.head?_cons, Option.some.injEq] at h
      subst h
      rfl

theorem lastNot_cons_cons (c d : Char) (t : List Char) :
    lastNotWSB (c :: d :: t) = lastNotWSB (d :: t) := by
  unfold lastNotWSB
  apply headNotWSB_congr
  rw [List.reverse_cons]
  exact head?_append_left _ _ (by simp)

theorem noDouble_tail (c : Char) (t : List Char) (h : noDoubleWSB (c :: t) = true) :
    noDoubleWSB t = true := by
  cases t with
  | nil => rfl
  | cons d t' =>
    simp only [noDoubleWSB, Bool.and_eq_true] at h
    exact h.2

theorem noDouble_drop (k : Nat) (l : List Char) (h : noDoubleWSB l = true) :
    noDoubleWSB (l.drop k) = true := by
  induction k generalizing l with
  | zero => exact h
  | succ k ih =>
    cases l with
    | nil => rfl
    | cons c t =>
      rw [List.drop_succ_cons]
      exact ih t (noDouble_tail c t h)

theorem noDouble_append_pair : ∀ (x : List Char) (a b : Char) (t : List Char),
    noDoubleWSB (x ++ a :: b :: t) = true → (isWS a && isWS b) = false := by
  intro x
  induction x with
  | nil =>
    intro a b t h
    simp only [List.nil_append, noDoubleWSB, Bool.and_eq_true, Bool.not_eq_true'] at h
    exact h.1
  | cons e x' ih =>
    intro a b t h
    simp only [List.cons_append] at h
    exact ih a b t (noDouble_tail e _ h)

theorem noDouble_head_after_ws (c : Char) (t : List Char)
    (h : noDoubleWSB (c :: t) = true) (hc : isWS c = true) : headNotWSB t = true := by
  cases t with
  | nil => rfl
  | cons d t' =>
    simp only [noDoubleWSB, Bool.and_eq_true, Bool.not_eq_true'] at h
    have h1 := h.1
    rw [hc] at h1
    simpa [headNotWSB] using h1

theorem lastNot_exists {l : List Char} (hne : l ≠ []) (h : lastNotWSB l = true) :
    ∃ c ∈ l, isWS c = false := by
  cases hr : l.reverse with
  | nil => exact absurd (by simpa using hr) hne
  | cons c r =>
    refine ⟨c, ?_, ?_⟩
    · have hm : c ∈ l.reverse := by rw [hr]; exact List.mem_cons_self c r
      simpa using hm
    · unfold lastNotWSB at h
      rw [hr] at h
      simpa [headNotWSB] using h

theorem collapseAux_false_ne_nil (c : Char) (t : List Char) :
    collapseAux false (c :: t) ≠ [] := by
  by_cases hc : isWS c = true <;> simp [collapseAux, hc]

theorem collapseAux_true_head : ∀ l : List Char, headNotWSB (collapseAux true l) = true := by
  intro l
  induction l with
  | nil => rfl
  | cons c rest ih =>
    by_cases hc : isWS c = true
    · simpa [collapseAux, hc] using ih
    · simp [collapseAux, hc, headNotWSB]

theorem collapseAux_true_nil_allWS : ∀ l : List Char, collapseAux true l = [] →
    ∀ c ∈ l, isWS c = true := by
  intro l
  induction l with
  | nil => intro _ c hc; simp at hc
  | cons a t ih =>
    intro h c hc
    by_cases ha : isWS a = true
    · simp only [collapseAux, ha, if_true] at h
      rcases List.mem_cons.mp hc with rfl | hmem
      · exact ha
      · exact ih h c hmem
    · simp [collapseAux, ha] at h

theorem noDouble_cons_of_headNot (a : Char) (X : List Char)
    (hX : noDoubleWSB X = true) (hh : headNotWSB X = true) :
    noDoubleWSB (a :: X) = true := by
  cases X with
  | nil => rfl
  | cons e X' =>
    have he : isWS e = false := by simpa [headNotWSB] using hh
    simp only [noDoubleWSB, Bool.and_eq_true, Bool.not_eq_true']
    exact ⟨by simp [he], hX⟩

theorem noDouble_cons_of_fst_not (a : Char) (X : List Char)
    (hX : noDoubleWSB X = true) (ha : isWS a = false) :
    noDoubleWSB (a :: X) = true := by
  cases X with
  | nil => rfl
  | cons e X' =>
    simp only [noDoubleWSB, Bool.and_eq_true, Bool.not_eq_true']
    exact ⟨by simp [ha], hX⟩

theorem collapseAux_noDouble : ∀ (l : List Char) (b : Bool),
    noDoubleWSB (collapseAux b l) = true := by
  intro l
  induction l with
  | nil => intro b; cases b <;> rfl
  | cons c rest ih =>
    intro b
    by_cases hc : isWS c = true
    · cases b with
      | true => simpa [collapseAux, hc] using ih true
      | false =>
        have hstep := noDouble_cons_of_headNot ' ' (collapseAux true rest)
          (ih true) (collapseAux_true_head rest)
        simpa [collapseAux, hc] using hstep
    · have hc' : isWS c = false := by simpa using hc
      have hstep := noDouble_cons_of_fst_not c (collapseAux false rest) (ih false) hc'
      simpa [collapseAux, hc] using hstep

theorem collapseAux_ws_true (c : Char) (t : List Char) (hc : isWS c = true) :
    collapseAux true (c :: t) = collapseAux true t := by
  simp [collapseAux, hc]

theorem collapseAux_ws_false (c : Char) (t : List Char) (hc : isWS c = true) :
    collapseAux false (c :: t) = ' ' :: collapseAux true t := by
  simp [collapseAux, hc]

theorem collapseAux_not_ws (b : Bool) (c : Char) (t : List Char) (hc : isWS c = false) :
    collapseAux b (c :: t) = c :: collapseAux false t := by
  simp [collapseAux, hc]

theorem collapseAux_lastNot : ∀ (l : List Char) (b : Bool),
    lastNotWSB l = true → lastNotWSB (collapseAux b l) = true := by
  intro l
  induction l with
  | nil => intro b _; cases b <;> rfl
  | cons c t ih =>
    intro b h
    by_cases hc : isWS c = true
    · cases t with
      | nil =>
        exfalso
        unfold lastNotWSB at h
        simp [headNotWSB, hc] at h
      | cons d t' =>
        have h' : lastNotWSB (d :: t') = true := by
          rw [← lastNot_cons_cons c d t']; exact h
        have hrec : lastNotWSB (collapseAux true (d :: t')) = true := ih true h'
        cases b with
        | true => simpa [collapseAux, hc] using hrec
        | false =>
          cases hx : collapseAux true (d :: t') with
          | nil =>
            exfalso
            have hall := collapseAux_true_nil_allWS (d :: t') hx
            obtain ⟨x, hxmem, hxw⟩ := lastNot_exists (l := d :: t') (by simp) h'
            rw [hall x hxmem] at hxw
            exact absurd hxw (by decide)
          | cons e X =>
            have hgoal : lastNotWSB (' ' :: e :: X) = true := by
              rw [lastNot_cons_cons, ← hx]
              exact hrec
            rw [collapseAux_ws_false c (d :: t') hc, hx]
            exact hgoal
    · have hc' : isWS c = false := by simpa using hc
      cases t with
      | nil =>
        rw [collapseAux_not_ws b c [] hc']
        simp [collapseAux, lastNotWSB, headNotWSB, hc']
      | cons d t' =>
        have h' : lastNotWSB (d :: t') = true := by
          rw [← lastNot_cons_cons c d t']; exact h
        have hrec := ih false h'
        cases hx : collapseAux false (d :: t') with
        | nil => exact absurd hx (collapseAux_false_ne_nil d t')
        | cons e X =>
          have hgoal : lastNotWSB (c :: e :: X) = true := by
            rw [lastNot_cons_cons, ← hx]
            exact hrec
          rw [collapseAux_not_ws b c (d :: t') hc', hx]
          exact hgoal

theorem collapseAux_true_of_headNot (t : List Char) (h : headNotWSB t = true) :
    collapseAux true t = collapseAux false t := by
  cases t with
  | nil => rfl
  | cons c t' =>
    have hc : isWS c = false := by simpa [headNotWSB] using h
    simp [collapseAux, hc]

theorem onlyPlain_tail (c : Char) (t : List Char) (h : onlyPlainSpaces (c :: t) = true) :
    onlyPlainSpaces t = true := by
  simp only [onlyPlainSpaces, List.all_cons, Bool.and_eq_true] at h
  exact h.2

theorem collapse_id : ∀ l : List Char, noDoubleWSB l = true → onlyPlainSpaces l = true →
    collapseAux false l = l := by
  intro l
  induction l with
  | nil => intro _ _; rfl
  | cons c t ih =>
    intro hnd hop
    have ht : collapseAux false t = t := ih (noDouble_tail c t hnd) (onlyPlain_tail c t hop)
    by_cases hc : isWS c = true
    · have hcsp : c = ' ' := by
        simp only [onlyPlainSpaces, List.all_cons, Bool.and_eq_true] at hop
        have h1 := hop.1
        rw [hc] at h1
        simpa using h1
      have hht : headNotWSB t = true := noDouble_head_after_ws c t hnd hc
      simp [collapseAux, hc, collapseAux_true_of_headNot t hht, ht, hcsp]
    · simp [collapseAux, hc, ht]

theorem pyStrip_lastNot (l : List Char) : lastNotWSB (pyStrip l) = true := by
  unfold pyStrip lastNotWSB
  rw [List.reverse_reverse]
  exact dropWhile_headNot _

theorem dropWhile_id_of_headNot {l : List Char} (h : headNotWSB l = true) :
    l.dropWhile isWS = l := by
  cases l with
  | nil => rfl
  | cons c t =>
    have hc : ¬ isWS c = true := by
      simp only [headNotWSB, Bool.not_eq_true'] at h
      simp [h]
    exact List.dropWhile_cons_of_neg hc

theorem pyStrip_id {l : List Char} (h1 : headNotWSB l = true) (h2 : lastNotWSB l = true) :
    pyStrip l = l := by
  unfold pyStrip
  rw [dropWhile_id_of_headNot h1,
    dropWhile_id_of_headNot (show headNotWSB l.reverse = true from h2),
    List.reverse_reverse]

theorem pyStrip_cons_headNot {c : Char} {capt : List Char} (hc : isWS c = false) :
    pyStrip (c :: capt) ≠ [] := by
  unfold pyStrip
  have h1 : (c :: capt).dropWhile isWS = c :: capt :=
    dropWhile_id_of_headNot (by simp [headNotWSB, hc])
  rw [h1]
  intro h
  rw [List.reverse_eq_nil_iff, List.dropWhile_eq_nil_iff] at h
  have hcc := h c (by simp)
  rw [hc] at hcc
  exact absurd hcc (by decide)

theorem fillerAt_shape {w t : List Char} (hf : fillerAt w t = true) :
    ∃ c0 rest, t.drop w.length = c0 :: rest ∧ isWS c0 = true := by
  unfold fillerAt at hf
  rw [Bool.and_eq_true] at hf
  rcases hf with ⟨-, hm⟩
  cases hdr : t.drop w.length with
  | nil => rw [hdr] at hm; exact absurd hm (by decide)
  | cons c0 rest =>
    rw [hdr] at hm
    exact ⟨c0, rest, rfl, hm⟩

theorem lastNotWSB_congr {a b : List Char} (h : a.reverse.head? = b.reverse.head?) :
    lastNotWSB a = lastNotWSB b := by
  unfold lastNotWSB
  exact headNotWSB_congr h

theorem stripFillerOnce_inv (w t : List Char) (h : TidyInv t) :
    TidyInv (stripFillerOnce w t) := by
  unfold stripFillerOnce
  by_cases hf : fillerAt w t = true
  · rw [if_pos hf]
    obtain ⟨hne, hlast, hnd⟩ := h
    obtain ⟨c0, rest, hdr, hc0⟩ := fillerAt_shape hf
    obtain ⟨k, hk⟩ := dropWhile_eq_drop isWS (t.drop w.length)
    rw [List.drop_drop] at hk
    have hdropne : t.drop w.length ≠ [] := by rw [hdr]; simp
    have hne' : (t.drop w.length).dropWhile isWS ≠ [] := by
      intro hnil
      rw [List.dropWhile_eq_nil_iff] at hnil
      have hrev := drop_reverse_head? w.length t hdropne
      cases hrt : t.reverse with
      | nil => exact hne (by simpa using hrt)
      | cons x xs =>
        have hx : isWS x = false := by
          unfold lastNotWSB at hlast
          rw [hrt] at hlast
          simpa [headNotWSB] using hlast
        rw [hrt] at hrev
        simp only [List.head?_cons] at hrev
        have hxmem := mem_of_head?_eq hrev
        rw [List.mem_reverse] at hxmem
        have := hnil x hxmem
        rw [hx] at this
        exact absurd this (by decide)
    refine ⟨hne', ?_, ?_⟩
    · have hcongr : lastNotWSB ((t.drop w.length).dropWhile isWS) = lastNotWSB t := by
        apply lastNotWSB_congr
        rw [hk]
        exact drop_reverse_head? _ t (by rw [← hk]; exact hne')
      rw [hcongr]
      exact hlast
    · rw [hk]
      exact noDouble_drop _ t hnd
  · rw [if_neg hf]
    exact h

theorem stripSeq_inv : ∀ (ws : List (List Char)) (t : List Char),
    TidyInv t → TidyInv (stripSeq ws t) := by
  intro ws
  induction ws with
  | nil => intro t h; exact h
  | cons w ws ih => intro t h; exact ih _ (stripFillerOnce_inv w t h)

theorem foldl_eq_stripSeq : ∀ (ws : List (List Char)) (t : List Char),
    ws.foldl (fun acc w => stripFillerOnce w acc) t = stripSeq ws t := by
  intro ws
  induction ws with
  | nil => intro t; rfl
  | cons w ws ih =>
    intro t
    simp only [List.foldl_cons]
    exact ih _

theorem stripFillerOnce_drop (w t : List Char) : ∃ k, stripFillerOnce w t = t.drop k := by
  unfold stripFillerOnce
  by_cases hf : fillerAt w t = true
  · rw [if_pos hf]
    obtain ⟨k, hk⟩ := dropWhile_eq_drop isWS (t.drop w.length)
    rw [List.drop_drop] at hk
    exact ⟨w.length + k, hk⟩
  · exact ⟨0, by rw [if_neg hf]; rfl⟩

theorem stripSeq_drop : ∀ (ws : List (List Char)) (t : List Char),
    ∃ k, stripSeq ws t = t.drop k := by
  intro ws
  induction ws with
  | nil => intro t; exact ⟨0, rfl⟩
  | cons w ws ih =>
    intro t
    obtain ⟨k1, h1⟩ := stripFillerOnce_drop w t
    obtain ⟨k2, h2⟩ := ih (stripFillerOnce w t)
    refine ⟨k1 + k2, ?_⟩
    simp only [stripSeq]
    rw [h2, h1, List.drop_drop]

theorem stripSeq_id : ∀ (ws : List (List Char)) (t : List Char),
    ws.all (fun w => !fillerAt w t) = true → stripSeq ws t = t := by
  intro ws
  induction ws with
  | nil => intro t _; rfl
  | cons w ws ih =>
    intro t h
    simp only [List.all_cons, Bool.and_eq_true, Bool.not_eq_true'] at h
    have hstep : stripFillerOnce w t = t := by
      unfold stripFillerOnce
      rw [if_neg (by simp [h.1])]
    simp only [stripSeq, hstep]
    exact ih t h.2

theorem toLower_space (c : Char) (h : Char.toLower c = ' ') : isWS c = true := by
  simp only [Char.toLower] at h
  split at h
  · rename_i hcond
    exfalso
    obtain ⟨h65, h90⟩ := hcond
    generalize hg : c.toNat = n at h h65 h90
    interval_cases n <;> exact absurd h (by decide)
  · rw [h]
    decide

theorem map_concat_decomp {f : Char → Char} :
    ∀ (u a : List Char) (b : Char), u.map f = a ++ [b] →
      ∃ u0 uc, u = u0 ++ [uc] ∧ f uc = b := by
  intro u
  induction u with
  | nil => intro a b h; simp at h
  | cons c u' ih =>
    intro a b h
    cases a with
    | nil =>
      simp only [List.map_cons, List.nil_append] at h
      injection h with h1 h2
      rw [List.map_eq_nil_iff] at h2
      exact ⟨[], c, by rw [h2]; rfl, h1⟩
    | cons a0 a' =>
      simp only [List.map_cons, List.cons_append] at h
      injection h with h1 h2
      obtain ⟨u0, uc, hu, hf⟩ := ih a' b h2
      exact ⟨c :: u0, uc, by rw [hu]; rfl, hf⟩

theorem getLast?_concat_decomp : ∀ (w : List Char) (a : Char),
    w.getLast? = some a → ∃ w0, w = w0 ++ [a] := by
  intro w
  induction w with
  | nil => intro a h; simp at h
  | cons c w' ih =>
    intro a h
    cases w' with
    | nil =>
      simp only [List.getLast?_singleton, Option.some.injEq] at h
      exact ⟨[], by rw [h]; rfl⟩
    | cons d t =>
      rw [List.getLast?_cons_cons] at h
      obtain ⟨w0, hw0⟩ := ih a h
      exact ⟨c :: w0, by rw [hw0]; rfl⟩

theorem altsMatch_some : ∀ (lits : List (List Char)) (s cap : List Char),
    altsMatch lits s = some cap → ∃ w ∈ lits, litMatch w s = some cap := by
  intro lits
  induction lits with
  | nil => intro s cap h; simp [altsMatch] at h
  | cons w ws ih =>
    intro s cap h
    simp only [altsMatch] at h
    cases hl : litMatch w s with
    | some c =>
      rw [hl] at h
      have h2 : some c = some cap := h
      exact ⟨w, List.mem_cons_self _ _, hl.trans h2⟩
    | none =>
      rw [hl] at h
      have h2 : altsMatch ws s = some cap := h
      obtain ⟨w', hw', hm⟩ := ih s cap h2
      exact ⟨w', List.mem_cons_of_mem _ hw', hm⟩

theorem reSearch_some_drop : ∀ (s : List Char) (lits : List (List Char)) (cap : List Char),
    reSearch lits s = some cap → ∃ k, altsMatch lits (s.drop k) = some cap := by
  intro s
  induction s with
  | nil => intro lits cap h; simp [reSearch] at h
  | cons c t ih =>
    intro lits cap h
    simp only [reSearch] at h
    cases ha : altsMatch lits (c :: t) with
    | some x =>
      rw [ha] at h
      have h2 : some x = some cap := h
      exact ⟨0, by show altsMatch lits (c :: t) = some cap; rw [ha]; exact h2⟩
    | none =>
      rw [ha] at h
      have h2 : reSearch lits t = some cap := h
      obtain ⟨k, hk⟩ := ih lits cap h2
      exact ⟨k + 1, by rw [List.drop_succ_cons]; exact hk⟩

theorem extractLoop_some : ∀ (pats : List (List (List Char))) (s cap : List Char),
    extractLoop pats s = some cap → ∃ pat ∈ pats, reSearch pat s = some cap := by
  intro pats
  induction pats with
  | nil => intro s cap h; simp [extractLoop] at h
  | cons pat pats ih =>
    intro s cap h
    simp only [extractLoop] at h
    cases hr : reSearch pat s with
    | some x =>
      rw [hr] at h
      have h2 : some x = some cap := h
      exact ⟨pat, List.mem_cons_self _ _, hr.trans h2⟩
    | none =>
      rw [hr] at h
      have h2 : extractLoop pats s = some cap := h
      obtain ⟨pat', hp', hm⟩ := ih s cap h2
      exact ⟨pat', List.mem_cons_of_mem _ hp', hm⟩

theorem pyCapture_shape : ∀ (r cap : List Char), pyCapture r = some cap →
    ∃ c rest capt, r = c :: rest ∧ cap = c :: capt := by
  intro r cap h
  cases r with
  | nil => simp [pyCapture] at h
  | cons c rest =>
    simp only [pyCapture] at h
    split at h
    · simp at h
    · cases hpt : pyCaptureTail rest with
      | some t =>
        rw [hpt] at h
        have h2 : some (c :: t) = some cap := h
        injection h2 with h3
        exact ⟨c, rest, t, rfl, h3.symm⟩
      | none =>
        rw [hpt] at h
        exact absurd h (by simp)

theorem litMatch_some {w s cap : List Char} (h : litMatch w s = some cap) :
    (s.take w.length).map Char.toLower = w ∧ pyCapture (s.drop w.length) = some cap := by
  unfold litMatch at h
  by_cases hcond : (s.take w.length).map Char.toLower = w
  · rw [if_pos hcond] at h
    exact ⟨hcond, h⟩
  · rw [if_neg hcond] at h
    simp at h

theorem extract_nonempty (s : List Char) (hne : s ≠ []) (hnd : noDoubleWSB s = true) :
    extract_problem s ≠ [] := by
  unfold extract_problem
  cases hel : extractLoop questionPatterns s with
  | none => exact hne
  | some cap =>
    obtain ⟨pat, hpat, hrs⟩ := extractLoop_some _ _ _ hel
    obtain ⟨k, hk⟩ := reSearch_some_drop _ _ _ hrs
    obtain ⟨w, hw, hlm⟩ := altsMatch_some _ _ _ hk
    obtain ⟨hmap, hcap⟩ := litMatch_some hlm
    obtain ⟨c, rest, capt, hr, hcapeq⟩ := pyCapture_shape _ _ hcap
    have hwshape : w ≠ [] ∧ w.getLast? = some ' ' := by
      have hall : ∀ pat ∈ questionPatterns, ∀ w ∈ pat, w ≠ [] ∧ w.getLast? = some ' ' := by
        decide
      exact hall pat hpat w hw
    obtain ⟨w0, hw0⟩ := getLast?_concat_decomp w ' ' hwshape.2
    rw [hw0] at hmap
    obtain ⟨u0, uc, hu, hfuc⟩ := map_concat_decomp _ _ _ hmap
    have hucws : isWS uc = true := toLower_space uc hfuc
    have hsk : s.drop k = u0 ++ uc :: (c :: rest) := by
      have h1 : (s.drop k).take w.length ++ (s.drop k).drop w.length = s.drop k :=
        List.take_append_drop _ _
      rw [hw0] at h1 hr
      rw [hu, hr] at h1
      rw [← h1, List.append_assoc]
      rfl
    have hndk : noDoubleWSB (s.drop k) = true := noDouble_drop k s hnd
    rw [hsk] at hndk
    have hpair := noDouble_append_pair u0 uc c rest hndk
    rw [hucws] at hpair
    have hcws : isWS c = false := by simpa using hpair
    rw [hcapeq]
    exact pyStrip_cons_headNot hcws

theorem bestOf_snd : ∀ (ys : List (String × Nat)) (x : String × Nat),
    (bestOf x ys).2 = maxScore (x :: ys) := by
  intro ys
  induction ys with
  | nil =>
    intro x
    simp [bestOf, maxScore]
  | cons y ys ih =>
    intro x
    have ih' := ih (if x.2 < y.2 then y else x)
    simp only [bestOf] at ih' ⊢
    rw [ih']
    simp only [maxScore]
    by_cases h : x.2 < y.2 <;>
      simp only [h, if_true, if_false] <;>
      simp only [Nat.max_def] <;> split_ifs <;> omega

theorem bestOf_first : ∀ (ys : List (String × Nat)) (x : String × Nat),
    firstWithScore ((bestOf x ys).2) (x :: ys) = some (bestOf x ys).1 := by
  intro ys
  induction ys with
  | nil =>
    intro x
    simp [bestOf, firstWithScore]
  | cons y ys ih =>
    intro x
    by_cases h : x.2 < y.2
    · have hb : bestOf x (y :: ys) = bestOf y ys := by simp [bestOf, h]
      rw [hb]
      have hge : y.2 ≤ (bestOf y ys).2 := by
        rw [bestOf_snd]
        simp only [maxScore, Nat.max_def]
        split_ifs <;> omega
      have hne : ¬ x.2 = (bestOf y ys).2 := by omega
      simp only [firstWithScore]
      rw [if_neg hne]
      exact ih y
    · have hb : bestOf x (y :: ys) = bestOf x ys := by simp [bestOf, h]
      rw [hb]
      have ihx := ih x
      by_cases hx : x.2 = (bestOf x ys).2
      · simp only [firstWithScore] at ihx ⊢
        rw [if_pos hx] at ihx
        rw [if_pos hx]
        exact ihx
      · have hgt : x.2 < (bestOf x ys).2 := by
          have hs := bestOf_snd ys x
          simp only [maxScore, Nat.max_def] at hs
          split_ifs at hs <;> omega
        have hy : ¬ y.2 = (bestOf x ys).2 := by omega
        simp only [firstWithScore] at ihx ⊢
        rw [if_neg hx] at ihx
        rw [if_neg hx, if_neg hy]
        exact ihx

theorem bestOf_firstWithScore (xs : List (String × Nat)) (x : String × Nat) :
    (if 0 < (bestOf x xs).2 then (bestOf x xs).1 else "general") =
      (if maxScore (x :: xs) = 0 then "general"
       else
         match firstWithScore (maxScore (x :: xs)) (x :: xs) with
         | some name => name
         | none => "general") := by
  have hs := bestOf_snd xs x
  by_cases h : (bestOf x xs).2 = 0
  · rw [if_neg (by omega), if_pos (by omega)]
  · rw [if_pos (by omega), if_neg (by omega), ← hs, bestOf_first]

theorem bestOf_mem : ∀ (ys : List (String × Nat)) (x : String × Nat),
    bestOf x ys ∈ x :: ys := by
  intro ys
  induction ys with
  | nil => intro x; exact List.mem_cons_self _ _
  | cons y ys ih =>
    intro x
    by_cases h : x.2 < y.2
    · have hb : bestOf x (y :: ys) = bestOf y ys := by simp [bestOf, h]
      rw [hb]
      rcases List.mem_cons.mp (ih y) with h1 | h1
      · rw [h1]
        exact List.mem_cons_of_mem _ (List.mem_cons_self _ _)
      · exact List.mem_cons_of_mem _ (List.mem_cons_of_mem _ h1)
    · have hb : bestOf x (y :: ys) = bestOf x ys := by simp [bestOf, h]
      rw [hb]
      rcases List.mem_cons.mp (ih x) with h1 | h1
      · rw [h1]
        exact List.mem_cons_self _ _
      · exact List.mem_cons_of_mem _ (List.mem_cons_of_mem _ h1)

theorem ite_best_ne (x : String × Nat) (xs : List (String × Nat))
    (hx : x.1 ≠ "") (hxs : ∀ y ∈ xs, y.1 ≠ "") :
    (if 0 < (bestOf x xs).2 then (bestOf x xs).1 else "general") ≠ "" := by
  by_cases h : 0 < (bestOf x xs).2
  · rw [if_pos h]
    rcases List.mem_cons.mp (bestOf_mem xs x) with h1 | h1
    · rw [h1]; exact hx
    · exact hxs _ h1
  · rw [if_neg h]
    decide

theorem detect_ne_empty (p : List Char) : detect_context p ≠ "" := by
  unfold detect_context
  simp only [context_keywords, List.map]
  apply ite_best_ne
  · exact (by decide : ("technical" : String) ≠ "")
  · intro y hy
    simp only [List.mem_cons, List.not_mem_nil, or_false] at hy
    rcases hy with rfl | rfl | rfl | rfl
    · exact (by decide : ("educational" : String) ≠ "")
    · exact (by decide : ("creative" : String) ≠ "")
    · exact (by decide : ("analytical" : String) ≠ "")
    · exact (by decide : ("business" : String) ≠ "")

theorem lookupD_ne_empty : ∀ (tbl : List (String × String)) (key d : String),
    d ≠ "" → (∀ pr ∈ tbl, pr.2 ≠ "") → lookupD tbl key d ≠ "" := by
  intro tbl
  induction tbl with
  | nil => intro key d hd _; exact hd
  | cons p rest ih =>
    intro key d hd htbl
    obtain ⟨k, v⟩ := p
    simp only [lookupD]
    by_cases h : k = key
    · rw [if_pos h]
      exact htbl (k, v) (List.mem_cons_self _ _)
    · rw [if_neg h]
      exact ih key d hd (fun pr hpr => htbl pr (List.mem_cons_of_mem _ hpr))

theorem approach_ne_empty (q : List Char) (ctx : String) :
    determine_solution_approach q ctx ≠ "" := by
  unfold determine_solution_approach
  apply lookupD_ne_empty
  · decide
  · intro pr hpr
    simp only [context_approaches, List.mem_cons, List.not_mem_nil, or_false] at hpr
    rcases hpr with rfl | rfl | rfl | rfl | rfl | rfl <;> decide

theorem findFormat_mem : ∀ (tbl : List (String × String)) (lower : List Char) (f : String),
    findFormat tbl lower = some f → ∃ pr ∈ tbl, pr.2 = f := by
  intro tbl
  induction tbl with
  | nil => intro lower f h; simp [findFormat] at h
  | cons p rest ih =>
    intro lower f h
    obtain ⟨kw, fmt⟩ := p
    simp only [findFormat] at h
    split at h
    · injection h with h1
      exact ⟨(kw, fmt), List.mem_cons_self _ _, h1⟩
    · obtain ⟨pr, hpr, he⟩ := ih lower f h
      exact ⟨pr, List.mem_cons_of_mem _ hpr, he⟩

theorem format_ne_empty (q : List Char) (ctx : String) :
    suggest_output_format q ctx ≠ "" := by
  unfold suggest_output_format
  cases hf : findFormat format_keywords (q.map Char.toLower) with
  | some fmt =>
    obtain ⟨pr, hpr, he⟩ := findFormat_mem _ _ _ hf
    have hne : pr.2 ≠ "" := by
      simp only [format_keywords, List.mem_cons, List.not_mem_nil, or_false] at hpr
      rcases hpr with rfl | rfl | rfl | rfl | rfl | rfl | rfl | rfl <;> decide
    rw [← he]
    exact hne
  | none =>
    apply lookupD_ne_empty
    · decide
    · intro pr hpr
      simp only [context_formats, List.mem_cons, List.not_mem_nil, or_false] at hpr
      rcases hpr with rfl | rfl | rfl | rfl | rfl | rfl <;> decide

theorem asString_ne_empty {l : List Char} (h : l ≠ []) : l.asString ≠ "" := by
  intro hc
  apply h
  have h1 : (l.asString).data = ("" : String).data := congrArg String.data hc
  exact h1

theorem clean_prompt_tidy (l : List Char) (hp : pyStrip l ≠ []) :
    TidyInv (clean_prompt l) := by
  unfold clean_prompt
  rw [foldl_eq_stripSeq]
  apply stripSeq_inv
  obtain ⟨c, t, hct⟩ := List.exists_cons_of_ne_nil hp
  refine ⟨?_, ?_, ?_⟩
  · unfold collapseWS
    rw [hct]
    exact collapseAux_false_ne_nil c t
  · exact collapseAux_lastNot _ false (pyStrip_lastNot l)
  · exact collapseAux_noDouble _ false

theorem altsMatch_nil_text : ∀ lits : List (List Char), altsMatch lits [] = none := by
  intro lits
  induction lits with
  | nil => rfl
  | cons w ws ih =>
    simp only [altsMatch]
    have hl : litMatch w [] = none := by
      unfold litMatch
      split
      · rw [List.drop_nil]
        rfl
      · rfl
    rw [hl]
    exact ih

/-- C1 counterexamples: on the empty prompt the endpoint raises a 400 error no
matter how the external service behaves; and on a non-blank prompt where the
service returns the JSON string "context problem expected_solution
output_format" (a value that lacks the four required keys — it has no keys at
all — yet passes `all(k in data ...)` by substring containment), the merge
crashes with an uncaught `AttributeError`, surfaced to the caller as an
internal server error.  Both refute the claim's error-freeness. -/
theorem c1_counterexample :
    enhance_endpoint "" GeminiOutcome.failure =
      EndpointResult.httpError 400 "Prompt is required" ∧
    enhance_endpoint "How do I write a Python function?"
        (GeminiOutcome.parsed
          (PyJson.pystr "context problem expected_solution output_format")) =
      EndpointResult.internalError "AttributeError" := by
  exact ⟨by decide, by decide⟩

/-- C1 (amended): for every prompt that is non-empty after trimming and every
failing service behaviour — raised exception or non-JSON text; a parsed JSON
object lacking one of the four required keys; a parsed JSON string or array
not containing all four key names (as substrings resp. elements); or parsed
non-iterable JSON — the endpoint surfaces no error: it returns the full
Heuristic Analyzer result with metadata source "local". -/
theorem c1_local_fallback (p : String) (g : GeminiOutcome)
    (hp : pyStrip p.data ≠ []) (hg : serviceFails g) :
    enhance_endpoint p g =
      .ok { original_prompt := p, enhanced_prompt := analyze_prompt p,
            source := "local" } := by
  unfold enhance_endpoint
  rw [if_neg hp]
  have hcg : call_gemini p g = none := by
    cases g with
    | failure => rfl
    | parsed data =>
      cases data with
      | pynull => rfl
      | pybool b => rfl
      | pynum n => rfl
      | pyobj fields =>
        have hg' : ¬ requiredKeys.all (fun k => pyMem k (PyJson.pyobj fields)) = true := hg
        show (if (requiredKeys.all fun k => pyMem k (PyJson.pyobj fields)) = true then
            some ({ original_prompt := p, enhanced_prompt := PyJson.pyobj fields,
                    source := "gemini" } : GeminiReply)
          else none) = none
        rw [if_neg hg']
      | pystr s =>
        have hg' : ¬ requiredKeys.all (fun k => pyMem k (PyJson.pystr s)) = true := hg
        show (if (requiredKeys.all fun k => pyMem k (PyJson.pystr s)) = true then
            some ({ original_prompt := p, enhanced_prompt := PyJson.pystr s,
                    source := "gemini" } : GeminiReply)
          else none) = none
        rw [if_neg hg']
      | pylist xs =>
        have hg' : ¬ requiredKeys.all (fun k => pyMem k (PyJson.pylist xs)) = true := hg
        show (if (requiredKeys.all fun k => pyMem k (PyJson.pylist xs)) = true then
            some ({ original_prompt := p, enhanced_prompt := PyJson.pylist xs,
                    source := "gemini" } : GeminiReply)
          else none) = none
        rw [if_neg hg']
  rw [hcg]
  rfl

/-- C1 witness: the fallback theorem applied to a prompt and a parsed response
missing three of the four required keys. -/
theorem c1_local_fallback_witness :
    enhance_endpoint "How do I write a Python function?"
        (GeminiOutcome.parsed (PyJson.pyobj [("context", some "x")])) =
      .ok { original_prompt := "How do I write a Python function?",
            enhanced_prompt := analyze_prompt "How do I write a Python function?",
            source := "local" } :=
  c1_local_fallback _ _ (by decide) (by decide)

/-- C2 counterexample: on "What is machine learning?" the detected context is
not "general" — the educational keyword "learn" occurs inside "learning". -/
theorem c2_counterexample :
    (analyze_prompt "What is machine learning?").context ≠ "general" := by
  decide

/-- C2 (amended): `analyze_prompt "What is machine learning?"` yields context
"educational" (keyword "learn" matches as a substring of "learning"), problem
"machine learning", and the educational default output format
"step-by-step guide". -/
theorem c2_ml_analysis :
    (analyze_prompt "What is machine learning?").context = "educational" ∧
    (analyze_prompt "What is machine learning?").problem = "machine learning" ∧
    (analyze_prompt "What is machine learning?").output_format = "step-by-step guide" := by
  decide

/-- C3: for every input text `detect_context` scores the five categories by
counting keyword substring hits (each keyword at most once), returns the
category with the highest score, breaks ties by the fixed table order with the
earliest category winning, and returns "general" exactly when the maximal
score is zero — formalised as equality with the specification-side
`detectContextSpec`. -/
theorem c3_detect_context_first_max :
    ∀ p : List Char, detect_context p = detectContextSpec p := by
  intro p
  unfold detect_context detectContextSpec
  simp only [context_keywords, List.map]
  exact bestOf_firstWithScore _ _

/-- C4: a parsed external response that is a JSON object holding all four
required keys (even with empty-string values) is accepted and merged field by
field — the external value whenever it is truthy (present, non-null,
non-empty), otherwise the Heuristic Analyzer's value — under metadata source
"gemini+local". -/
theorem c4_merge_fields (p : String) (d : List (String × Option String))
    (hp : pyStrip p.data ≠ [])
    (hk : requiredKeys.all (fun k => (d.lookup k).isSome) = true) :
    enhance_endpoint p (.parsed (PyJson.pyobj d)) =
      .ok { original_prompt := p,
            enhanced_prompt :=
              { context := pyOr ((d.lookup "context").join) (analyze_prompt p).context,
                problem := pyOr ((d.lookup "problem").join) (analyze_prompt p).problem,
                expected_solution :=
                  pyOr ((d.lookup "expected_solution").join) (analyze_prompt p).expected_solution,
                output_format :=
                  pyOr ((d.lookup "output_format").join) (analyze_prompt p).output_format },
            source := "gemini+local" } := by
  unfold enhance_endpoint
  rw [if_neg hp]
  have hk' : requiredKeys.all (fun k => pyMem k (PyJson.pyobj d)) = true := hk
  have hcg : call_gemini p (GeminiOutcome.parsed (PyJson.pyobj d)) =
      some ({ original_prompt := p, enhanced_prompt := PyJson.pyobj d,
              source := "gemini" } : GeminiReply) := by
    show (if (requiredKeys.all fun k => pyMem k (PyJson.pyobj d)) = true then
        some ({ original_prompt := p, enhanced_prompt := PyJson.pyobj d,
                source := "gemini" } : GeminiReply)
      else none) =
      some ({ original_prompt := p, enhanced_prompt := PyJson.pyobj d,
              source := "gemini" } : GeminiReply)
    rw [if_pos hk']
  rw [hcg]

/-- C4 witness: the merge applied where the external response carries
output_format = "" and the other three fields populated — output_format comes
from the Heuristic Analyzer, the rest from the external response. -/
theorem c4_merge_fields_witness :
    enhance_endpoint "Explain blockchain technology"
        (GeminiOutcome.parsed (PyJson.pyobj
          [("context", some "technical writing"), ("problem", some "blockchain basics"),
           ("expected_solution", some "a clear overview"), ("output_format", some "")])) =
      .ok { original_prompt := "Explain blockchain technology",
            enhanced_prompt :=
              { context := "technical writing", problem := "blockchain basics",
                expected_solution := "a clear overview",
                output_format := "step-by-step guide" },
            source := "gemini+local" } :=
  (c4_merge_fields "Explain blockchain technology"
      [("context", some "technical writing"), ("problem", some "blockchain basics"),
       ("expected_solution", some "a clear overview"), ("output_format", some "")]
      (by decide) (by decide)).trans (by decide)

/-- C5 counterexample: "please can you explain recursion" loses both leading
fillers, not only the first one — the claim as stated predicts the result
"can you explain recursion". -/
theorem c5_counterexample :
    clean_prompt ("please can you explain recursion".data) = "explain recursion".data ∧
    "explain recursion".data ≠ "can you explain recursion".data := by
  exact ⟨by decide, by decide⟩

/-- C5 (amended): after whitespace collapsing and trimming, the filler passes
run sequentially in the fixed order please, can you, could you, i need,
i want; each pass strips its filler (with the following whitespace) whenever
the current text starts with it, so several fillers can be removed when they
occur in pass order; the result is always a suffix of the collapsed text, so
mid-string fillers are never removed. -/
theorem c5_sequential_strip (l : List Char) :
    clean_prompt l = stripSeq fillerWords (collapseWS (pyStrip l)) ∧
    ∃ k, clean_prompt l = (collapseWS (pyStrip l)).drop k := by
  constructor
  · unfold clean_prompt
    exact foldl_eq_stripSeq _ _
  · unfold clean_prompt
    rw [foldl_eq_stripSeq]
    exact stripSeq_drop _ _

theorem findFormat_cons (kw fmt : String) (rest : List (String × String)) (lower : List Char) :
    findFormat ((kw, fmt) :: rest) lower =
      if containsSub kw.data lower then some fmt else findFormat rest lower := rfl

theorem findFormat_nil (lower : List Char) : findFormat [] lower = none := rfl

theorem lookupD_cons (k v key d : String) (rest : List (String × String)) :
    lookupD ((k, v) :: rest) key d = if k = key then v else lookupD rest key d := rfl

theorem lookupD_nil (key d : String) : lookupD [] key d = d := rfl

/-- C6: `suggest_output_format` returns the label of the first keyword of the
fixed priority order bullet, list, step, table, compare, summary, code, essay
that occurs case-insensitively in the text, else the context-keyed default;
and `analyze_prompt "Compare React and Vue.js"` yields context "analytical",
problem "React and Vue.js" and output format "comparative analysis". -/
theorem c6_format_priority :
    (∀ (t : List Char) (ctx : String),
        suggest_output_format t ctx = suggestFormatSpec t ctx) ∧
    analyze_prompt "Compare React and Vue.js" =
      { context := "analytical", problem := "React and Vue.js",
        expected_solution := "Present detailed analysis with pros/cons and conclusions",
        output_format := "comparative analysis" } := by
  constructor
  · intro t ctx
    show (match findFormat format_keywords (t.map Char.toLower) with
          | some fmt => fmt
          | none => lookupD context_formats ctx "detailed explanation") = suggestFormatSpec t ctx
    rw [show format_keywords = [("bullet", "bullet points"), ("list", "bullet points"),
        ("step", "step-by-step guide"), ("table", "table format"),
        ("compare", "comparative analysis"), ("summary", "summary"),
        ("code", "code example"), ("essay", "essay format")] from rfl,
      show context_formats = [("technical", "detailed explanation"),
        ("educational", "step-by-step guide"), ("creative", "essay format"),
        ("analytical", "comparative analysis"), ("business", "summary"),
        ("general", "detailed explanation")] from rfl,
      findFormat_cons, findFormat_cons, findFormat_cons, findFormat_cons,
      findFormat_cons, findFormat_cons, findFormat_cons, findFormat_cons, findFormat_nil,
      lookupD_cons, lookupD_cons, lookupD_cons, lookupD_cons, lookupD_cons, lookupD_cons,
      lookupD_nil]
    unfold suggestFormatSpec
    by_cases h1 : containsSub ("bullet".data) (t.map Char.toLower) = true
    · simp only [if_pos h1]
    · simp only [if_neg h1]
      by_cases h2 : containsSub ("list".data) (t.map Char.toLower) = true
      · simp only [if_pos h2]
      · simp only [if_neg h2]
        by_cases h3 : containsSub ("step".data) (t.map Char.toLower) = true
        · simp only [if_pos h3]
        · simp only [if_neg h3]
          by_cases h4 : containsSub ("table".data) (t.map Char.toLower) = true
          · simp only [if_pos h4]
          · simp only [if_neg h4]
            by_cases h5 : containsSub ("compare".data) (t.map Char.toLower) = true
            · simp only [if_pos h5]
            · simp only [if_neg h5]
              by_cases h6 : containsSub ("summary".data) (t.map Char.toLower) = true
              · simp only [if_pos h6]
              · simp only [if_neg h6]
                by_cases h7 : containsSub ("code".data) (t.map Char.toLower) = true
                · simp only [if_pos h7]
                · simp only [if_neg h7]
                  by_cases h8 : containsSub ("essay".data) (t.map Char.toLower) = true
                  · simp only [if_pos h8]
                  · simp only [if_neg h8]
                    by_cases g1 : "technical" = ctx
                    · simp only [if_pos g1]
                    · simp only [if_neg g1]
                      by_cases g2 : "educational" = ctx
                      · simp only [if_pos g2]
                      · simp only [if_neg g2]
                        by_cases g3 : "creative" = ctx
                        · simp only [if_pos g3]
                        · simp only [if_neg g3]
                          by_cases g4 : "analytical" = ctx
                          · simp only [if_pos g4]
                          · simp only [if_neg g4]
                            by_cases g5 : "business" = ctx
                            · simp only [if_pos g5]
                            · simp only [if_neg g5]
                              by_cases g6 : "general" = ctx
                              · simp only [if_pos g6]
                              · simp only [if_neg g6]
  · decide

/-- C7: on every path the `original_prompt` field equals the raw input string
unchanged — in the core `enhance_prompt` record and in every successful
endpoint response, local fallback and merged external path alike. -/
theorem c7_original_untouched :
    (∀ p : String, (enhance_prompt p).original_prompt = p) ∧
    (∀ (p : String) (g : GeminiOutcome) (r : EnhanceResult),
        enhance_endpoint p g = .ok r → r.original_prompt = p) := by
  refine ⟨fun p => rfl, ?_⟩
  intro p g r h
  unfold enhance_endpoint at h
  split at h
  · exact absurd h (by simp)
  · split at h
    · injection h with h1
      rw [← h1]
      rfl
    · split at h
      · injection h with h1
        rw [← h1]
      all_goals injection h

/-- C7 witness: the endpoint invariant applied to a concrete request whose
prompt carries leading filler and irregular whitespace. -/
theorem c7_original_untouched_witness :
    ({ original_prompt := "  Please   explain  recursion  ",
       enhanced_prompt := analyze_prompt "  Please   explain  recursion  ",
       source := "local" } : EnhanceResult).original_prompt =
      "  Please   explain  recursion  " :=
  c7_original_untouched.2 "  Please   explain  recursion  " GeminiOutcome.failure
    { original_prompt := "  Please   explain  recursion  ",
      enhanced_prompt := analyze_prompt "  Please   explain  recursion  ",
      source := "local" } (by decide)

/-- C9 counterexample: "a\tb" satisfies every hypothesis of the claim — no
leading or trailing whitespace, no two adjacent whitespace characters, no
filler prefix — yet normalization rewrites the lone tab into a space. -/
theorem c9_counterexample :
    (headNotWSB ("a\tb".data) && lastNotWSB ("a\tb".data) && noDoubleWSB ("a\tb".data) &&
      fillerWords.all (fun w => !fillerAt w ("a\tb".data))) = true ∧
    clean_prompt ("a\tb".data) ≠ "a\tb".data := by
  exact ⟨by decide, by decide⟩

/-- C9 (amended): a string whose whitespace characters are all plain spaces,
with no leading or trailing whitespace, no two adjacent whitespace characters
and no leading filler prefix followed by whitespace, is a fixed point of the
normalization step. -/
theorem c9_normalized_fixed (l : List Char)
    (h1 : headNotWSB l = true) (h2 : lastNotWSB l = true)
    (h3 : noDoubleWSB l = true) (h4 : onlyPlainSpaces l = true)
    (h5 : fillerWords.all (fun w => !fillerAt w l) = true) :
    clean_prompt l = l := by
  unfold clean_prompt
  rw [foldl_eq_stripSeq]
  have hps : pyStrip l = l := pyStrip_id h1 h2
  rw [hps]
  have hcw : collapseWS l = l := collapse_id l h3 h4
  rw [hcw]
  exact stripSeq_id _ _ h5

/-- C9 witness: the amended idempotence applied to a concrete normalized
string. -/
theorem c9_normalized_fixed_witness :
    clean_prompt ("Summarize the meeting notes".data) = "Summarize the meeting notes".data :=
  c9_normalized_fixed _ (by decide) (by decide) (by decide) (by decide) (by decide)

/-- C10: pattern matching in `extract_problem` is unanchored — for every
alternation and text, the search succeeds exactly when the alternation
matches at some position (on some suffix) — and on
"Tell me what is recursion" the "what is" pattern fires mid-string, so the
problem becomes "recursion" rather than the whole text. -/
theorem c10_unanchored_search :
    (∀ (lits : List (List Char)) (t : List Char),
        (reSearch lits t).isSome = true ↔
          ∃ k, (altsMatch lits (t.drop k)).isSome = true) ∧
    extract_problem ("Tell me what is recursion".data) = "recursion".data := by
  constructor
  · intro lits t
    induction t with
    | nil =>
      constructor
      · intro hcon
        simp [reSearch] at hcon
      · rintro ⟨k, hk⟩
        rw [List.drop_nil, altsMatch_nil_text] at hk
        simp at hk
    | cons c t ih =>
      simp only [reSearch]
      cases ha : altsMatch lits (c :: t) with
      | some cap =>
        constructor
        · intro _
          refine ⟨0, ?_⟩
          rw [List.drop_zero, ha]
          rfl
        · intro _
          rfl
      | none =>
        show (reSearch lits t).isSome = true ↔ _
        rw [ih]
        constructor
        · rintro ⟨k, hk⟩
          exact ⟨k + 1, by rw [List.drop_succ_cons]; exact hk⟩
        · rintro ⟨k, hk⟩
          cases k with
          | zero =>
            rw [List.drop_zero, ha] at hk
            simp at hk
          | succ k =>
            rw [List.drop_succ_cons] at hk
            exact ⟨k, hk⟩
  · decide

attribute [irreducible] clean_prompt detect_context extract_problem
  determine_solution_approach suggest_output_format

theorem analyze_context_eq (p : String) :
    (analyze_prompt p).context = detect_context (clean_prompt p.data) := rfl

theorem analyze_problem_eq (p : String) :
    (analyze_prompt p).problem = (extract_problem (clean_prompt p.data)).asString := rfl

theorem analyze_solution_eq (p : String) :
    (analyze_prompt p).expected_solution =
      determine_solution_approach (clean_prompt p.data)
        (detect_context (clean_prompt p.data)) := rfl

theorem analyze_format_eq (p : String) :
    (analyze_prompt p).output_format =
      suggest_output_format (clean_prompt p.data)
        (detect_context (clean_prompt p.data)) := rfl

/-- C8: for every prompt that is non-empty after trimming, the analyzer
returns a StructuredPrompt whose four fields are all non-empty strings. -/
theorem c8_fields_nonempty (p : String) (hp : pyStrip p.data ≠ []) :
    (analyze_prompt p).context ≠ "" ∧ (analyze_prompt p).problem ≠ "" ∧
    (analyze_prompt p).expected_solution ≠ "" ∧ (analyze_prompt p).output_format ≠ "" := by
  obtain ⟨hne, hlast, hnd⟩ := clean_prompt_tidy p.data hp
  rw [analyze_context_eq, analyze_problem_eq, analyze_solution_eq, analyze_format_eq]
  refine ⟨?_, ?_, ?_, ?_⟩
  · exact detect_ne_empty (clean_prompt p.data)
  · exact asString_ne_empty (extract_nonempty (clean_prompt p.data) hne hnd)
  · exact approach_ne_empty (clean_prompt p.data) (detect_context (clean_prompt p.data))
  · exact format_ne_empty (clean_prompt p.data) (detect_context (clean_prompt p.data))

/-- C8 witness: the four-field non-emptiness applied to a concrete prompt. -/
theorem c8_fields_nonempty_witness :
    (analyze_prompt "Analyze the pros and cons of remote work").context ≠ "" ∧
    (analyze_prompt "Analyze the pros and cons of remote work").problem ≠ "" ∧
    (analyze_prompt "Analyze the pros and cons of remote work").expected_solution ≠ "" ∧
    (analyze_prompt "Analyze the pros and cons of remote work").output_format ≠ "" :=
  c8_fields_nonempty "Analyze the pros and cons of remote work" (by decide)
